import Mathlib

/-!
Verification of the session-store engine of `aholic-desktop`
(`src/main/services/session-store.ts` and `src/main/shared/session-types.ts`).

The TypeScript source is shallowly embedded as follows.

* A JS object used as a string-keyed record (`Record<string, T>`) is an
  insertion-ordered association list `List (String × T)`; `recordSet`
  models `obj[k] = v` (update in place when the key exists, append
  otherwise) and `recordGet` models `obj[k]`.
* A JSONL transcript file is a `List Line`: each line is blank, malformed
  JSON, valid JSON of an unrecognized shape, or a classified entry
  (snapshot / progress / user / assistant), mirroring the type-tag guards
  of `session-types.ts`.
* Filesystem access is a parameter `FSEnv` with `existsSync`, line
  reading (`Except Unit` so a read failure is an explicit error value,
  matching a rejected promise), `stat` mtime (`Option`, `none` meaning
  the stat threw) and `readdirSync` (`none` meaning the readdir threw).
* `new Date(ts).getTime()` is modelled by a `timestampMs : Int` field
  carried alongside the ISO `timestamp` string.
* JS strings are Lean `String`s; `str.slice(0, n)` is `takeChars n`,
  `encoded.replace(/x/g, y)` (single-character regex) is `mapChars`,
  `str.trim()` used as a truthiness test is `trimNonempty`, and
  `startsWith`/`endsWith`/`split` are the char-list operations below.
-/

namespace SessionStore

/-! Section: JS string-keyed records as association lists -/

/-- Models `obj[k]` on a JS object modelled as an insertion-ordered assoc list. -/
def recordGet (m : List (String × β)) (k : String) : Option β :=
  match m with
  | [] => none
  | kv :: rest => if kv.1 == k then some kv.2 else recordGet rest k

/-- Models `obj[k] = v` on a JS object: update the existing key in place, else append. -/
def recordSet (m : List (String × β)) (k : String) (v : β) : List (String × β) :=
  match m with
  | [] => [(k, v)]
  | kv :: rest => if kv.1 == k then (k, v) :: rest else kv :: recordSet rest k v

/-- Models `Map.delete(k)` / cache eviction. -/
def recordDelete (m : List (String × β)) (k : String) : List (String × β) :=
  m.filter (fun kv => kv.1 != k)

/-- Models `for (const [k, v] of Object.entries(src)) dst[k] = v` — merge `src`
into `dst`, later entries overwriting. -/
def mergeRecord (dst src : List (String × β)) : List (String × β) :=
  src.foldl (fun a kv => recordSet a kv.1 kv.2) dst

/-! Section: JS string primitives -/

/-- Models `str.replace(/c/g, d)` for single characters, i.e. a character map. -/
def mapChars (f : Char → Char) (s : String) : String :=
  ⟨s.data.map f⟩

/-- Models `str.slice(0, n)`. -/
def takeChars (n : Nat) (s : String) : String :=
  ⟨s.data.take n⟩

/-- Models `str.slice(n)`. -/
def dropChars (n : Nat) (s : String) : String :=
  ⟨s.data.drop n⟩

/-- Models `str.startsWith(pre)`. -/
def jsStartsWith (s pre : String) : Bool :=
  pre.data.isPrefixOf s.data

/-- Models `str.endsWith(suf)`. -/
def jsEndsWith (s suf : String) : Bool :=
  suf.data.isSuffixOf s.data

/-- Truthiness of `str.trim()`: the string has a non-whitespace character. -/
def trimNonempty (s : String) : Bool :=
  s.data.any (fun c => !c.isWhitespace)

/-- Models `str.split(c)` (single-character separator), on character lists. -/
def splitCharList (c : Char) : List Char → List (List Char)
  | [] => [[]]
  | x :: xs =>
    let r := splitCharList c xs
    if x = c then [] :: r
    else
      match r with
      | [] => [[x]]
      | y :: ys => (x :: y) :: ys

/-- Models `str.split(c)` for a single-character separator. -/
def splitStr (c : Char) (s : String) : List String :=
  (splitCharList c s.data).map (fun l => ⟨l⟩)

/-- Last element with a default (used for `path.basename`). -/
def lastD (d : α) : List α → α
  | [] => d
  | [x] => x
  | _ :: xs => lastD d xs

/-- Truthiness of an optional JS string (`undefined` and `""` are falsy). -/
def jsTruthy : Option String → Bool
  | none => false
  | some s => s != ""

/-- Models `x || null` for an optional JS string: `undefined` and `""` become `null`. -/
def jsOrNull : Option String → Option String
  | none => none
  | some s => if s = "" then none else some s

/-- Simplified `path.join(a, b)` for absolute POSIX paths without a
trailing separator on `a` other than the root itself. -/
def pathJoin (a b : String) : String :=
  if jsEndsWith a "/" then a ++ b else a ++ "/" ++ b

/-- Models `path.basename(p, suffix)` on POSIX paths: last `/`-separated
component, with `suffix` stripped when present. -/
def pathBasename (p suffix : String) : String :=
  let base := lastD "" (splitStr '/' p)
  if jsEndsWith base suffix then dropEnd suffix.data.length base else base
where
  /-- drop the last `n` characters. -/
  dropEnd (n : Nat) (s : String) : String := ⟨s.data.take (s.data.length - n)⟩

/-! Section: Data model (`session-types.ts`) -/

/-- Models `ThinkingBlock`. -/
structure ThinkingBlock where
  thinking : String
  signature : Option String
deriving DecidableEq, Repr

/-- Models `ToolUseBlock`. `input` is the serialized tool input payload; the
session store carries it through without inspecting it. -/
structure ToolUseBlock where
  id : String
  name : String
  input : String
  agentId : Option String
deriving DecidableEq, Repr

/-- Models `ToolResultBlock`. `content` is the result payload (string or block
array), carried through opaquely. -/
structure ToolResultBlock where
  tool_use_id : String
  content : String
  is_error : Option Bool
deriving DecidableEq, Repr

/-- Models `ContentBlock`: tagged variant discriminated by the `type` field. -/
inductive ContentBlock where
  | text (text : String)
  | thinking (b : ThinkingBlock)
  | tool_use (b : ToolUseBlock)
  | tool_result (b : ToolResultBlock)
deriving DecidableEq, Repr

/-- Models `message.role`. -/
inductive Role where
  | user
  | assistant
deriving DecidableEq, Repr

/-- Models `message.content`: a plain string or an ordered block sequence. -/
inductive MsgContent where
  | str (s : String)
  | blocks (bs : List ContentBlock)
deriving DecidableEq, Repr

/-- Models `RawMessageContent` (the `message` payload of a user/assistant entry). -/
structure MessagePayload where
  role : Role
  content : MsgContent
  model : Option String
deriving DecidableEq, Repr

/-- Shared shape of `RawUserMessage` / `RawAssistantMessage`.
`timestampMs` models `new Date(timestamp).getTime()`. -/
structure RawMsg where
  uuid : String
  parentUuid : Option String
  timestamp : String
  timestampMs : Int
  cwd : String
  version : String
  gitBranch : Option String
  message : MessagePayload
deriving DecidableEq, Repr

/-- One classified JSONL entry. `progress` carries `data.agentId` (already
known to be a string by `isProgressMessage`) and the optional
`parentToolUseID`. -/
inductive Entry where
  | fileHistorySnapshot
  | progress (agentId : String) (parentToolUseID : Option String)
  | user (m : RawMsg)
  | assistant (m : RawMsg)
deriving DecidableEq, Repr

/-- One line of a transcript file. `malformed` is a line `JSON.parse`
throws on; `unknown` is valid JSON matching none of the type-tag guards
(including a `progress`-shaped entry without a string `agentId`). -/
inductive Line where
  | blank
  | malformed
  | unknown
  | entry (e : Entry)
deriving DecidableEq, Repr

/-- Models `ProcessedMessage`. -/
structure ProcessedMessage where
  uuid : String
  parentUuid : Option String
  timestamp : String
  role : Role
  textContent : String
  thinkingBlocks : List ThinkingBlock
  toolUseBlocks : List ToolUseBlock
  toolResults : List (String × ToolResultBlock)
  model : Option String
deriving DecidableEq, Repr

/-- Models `Omit<Session, 'subagents'>` as produced by
`parseSessionFileWithAgentLinks`. -/
structure SessionCore where
  id : String
  project : String
  projectEncoded : String
  gitBranch : Option String
  cwd : String
  version : String
  startTime : Option Int
  endTime : Option Int
  messages : List ProcessedMessage
  filePath : String
deriving DecidableEq, Repr

/-- Models `SessionSummary`. -/
structure SessionSummary where
  id : String
  project : String
  projectEncoded : String
  firstMessage : String
  messageCount : Nat
  startTime : Option Int
  endTime : Option Int
  gitBranch : Option String
  model : Option String
  filePath : String
deriving DecidableEq, Repr

/-- One entry of the module-level summary cache. -/
structure CacheEntry where
  summary : SessionSummary
  mtime : Int
deriving DecidableEq, Repr

/-- The filesystem as seen by the session store. `readLines` returns the
classified lines of a file (`Except.error` models a rejected read);
`statMtime` is `fs.stat().mtimeMs` (`none` models a thrown stat);
`readdirSync` is `none` when the readdir throws. -/
structure FSEnv where
  existsSync : String → Bool
  readLines : String → Except Unit (List Line)
  statMtime : String → Option Int
  readdirSync : String → Option (List String)

/-! Section: Entry classifier & message processor (`session-store.ts` 149–200) -/

/-- Models `extractTextContent`: string content passes through; block content is
the text blocks joined with newlines. -/
def extractTextContent : MsgContent → String
  | .str s => s
  | .blocks bs =>
    String.intercalate "\n" (bs.filterMap fun b =>
      match b with
      | .text t => some t
      | _ => none)

/-- Models `extractThinkingBlocks`. -/
def extractThinkingBlocks : MsgContent → List ThinkingBlock
  | .str _ => []
  | .blocks bs => bs.filterMap fun b =>
      match b with
      | .thinking tb => some tb
      | _ => none

/-- Models `extractToolUseBlocks`. -/
def extractToolUseBlocks : MsgContent → List ToolUseBlock
  | .str _ => []
  | .blocks bs => bs.filterMap fun b =>
      match b with
      | .tool_use tu => some tu
      | _ => none

/-- Models `extractToolResults`: index the tool-result blocks by `tool_use_id`. -/
def extractToolResults : MsgContent → List (String × ToolResultBlock)
  | .str _ => []
  | .blocks bs => bs.foldl (fun acc b =>
      match b with
      | .tool_result rb => recordSet acc rb.tool_use_id rb
      | _ => acc) []

/-- Models `processMessage`. -/
def processMessage (entry : RawMsg) : ProcessedMessage :=
  { uuid := entry.uuid
    parentUuid := entry.parentUuid
    timestamp := entry.timestamp
    role := entry.message.role
    textContent := extractTextContent entry.message.content
    thinkingBlocks := extractThinkingBlocks entry.message.content
    toolUseBlocks := extractToolUseBlocks entry.message.content
    toolResults := extractToolResults entry.message.content
    model := entry.message.model }

/-- The retention filter (`session-store.ts` 278–284):
`processed.textContent.trim() || processed.toolUseBlocks.length > 0 ||
processed.thinkingBlocks.length > 0`. -/
def keepMessage (p : ProcessedMessage) : Bool :=
  trimNonempty p.textContent || p.toolUseBlocks.length != 0 ||
    p.thinkingBlocks.length != 0

/-- One backfill step (`session-store.ts` 296–301): look the tool-use id
up in the pending map and overwrite the message's own entry on a hit. -/
def backfillStep (pending : List (String × ToolResultBlock))
    (acc : List (String × ToolResultBlock)) (tu : ToolUseBlock) :
    List (String × ToolResultBlock) :=
  match recordGet pending tu.id with
  | some r => recordSet acc tu.id r
  | none => acc

/-- The post-pass backfill of one message (`session-store.ts` 295–302). -/
def backfillMsg (pending : List (String × ToolResultBlock))
    (m : ProcessedMessage) : ProcessedMessage :=
  { m with toolResults := m.toolUseBlocks.foldl (backfillStep pending) m.toolResults }

/-! Section: Path decoder (`session-store.ts` 105–147) -/

/-- Models `findValidPath`: backtracking search resolving the ambiguous `-`
encoding against the live filesystem (`ex` is `fs.existsSync`). -/
def findValidPath (ex : String → Bool) (basePath : String) :
    (remainingSegments : List String) → Option String
  | [] => if ex basePath then some basePath else none
  | seg :: rest =>
    let withSlash := pathJoin basePath seg
    match (if ex withSlash then findValidPath ex withSlash rest else none) with
    | some p => some p
    | none =>
      match
        (match rest with
         | seg2 :: rest2 => findValidPath ex basePath ((seg ++ "-" ++ seg2) :: rest2)
         | [] => none) with
      | some p => some p
      | none =>
        match rest with
        | [] => if ex withSlash then some withSlash else none
        | _ => none
termination_by remainingSegments => remainingSegments.length

/-- Models `decodeProjectPath`. -/
def decodeProjectPath (ex : String → Bool) (encoded : String) : String :=
  if jsStartsWith encoded "-" = false then
    encoded
  else
    let simpleDecode := mapChars (fun c => if c = '-' then '/' else c) encoded
    if ex simpleDecode then
      simpleDecode
    else
      let segments := splitStr '-' (dropChars 1 encoded)
      match findValidPath ex "/" segments with
      | some p => p
      | none => simpleDecode

/-- Derivation of `(project, projectEncoded)` from the file path
(`session-store.ts` 221–226 and 349–354): the component after the
`projects` segment, decoded via `decodeProjectPath`. -/
def projectOfPath (ex : String → Bool) (filePath : String) : String × String :=
  let pathParts := splitStr '/' filePath
  match pathParts.findIdx? (fun s => s == "projects") with
  | some i =>
    if i + 1 < pathParts.length then
      let enc := pathParts.getD (i + 1) ""
      (decodeProjectPath ex enc, enc)
    else ("", "")
  | none => ("", "")

/-! Section: Streaming session parser (`session-store.ts` 202–323) -/

/-- The mutable locals of `parseSessionFileWithAgentLinks`'s line loop. -/
structure ParseState where
  messages : List ProcessedMessage := []
  agentLinks : List (String × String) := []
  gitBranch : Option String := none
  cwd : String := ""
  version : String := ""
  startTime : Option Int := none
  endTime : Option Int := none
  metadataExtracted : Bool := false
  pending : List (String × ToolResultBlock) := []
deriving DecidableEq, Repr

/-- Handling of one user/assistant entry (`session-store.ts` 254–285):
first-entry metadata capture, min/max timestamps, message processing,
pending merge for user entries, retention filter. -/
def processUA (st : ParseState) (m : RawMsg) (isUser : Bool) : ParseState :=
  let st :=
    if st.metadataExtracted then st
    else { st with metadataExtracted := true, cwd := m.cwd, version := m.version,
                   gitBranch := jsOrNull m.gitBranch }
  let t := m.timestampMs
  let st := { st with
    startTime := some (match st.startTime with
      | none => t
      | some s0 => if t < s0 then t else s0)
    endTime := some (match st.endTime with
      | none => t
      | some e0 => if t > e0 then t else e0) }
  let p := processMessage m
  let st := if isUser then { st with pending := mergeRecord st.pending p.toolResults } else st
  if keepMessage p then { st with messages := st.messages ++ [p] } else st

/-- One iteration of the line loop of `parseSessionFileWithAgentLinks`. -/
def parseLine (st : ParseState) (l : Line) : ParseState :=
  match l with
  | .blank => st
  | .malformed => st
  | .unknown => st
  | .entry .fileHistorySnapshot => st
  | .entry (.progress agentId parentToolUseID) =>
    match parentToolUseID with
    | some ptid =>
      if agentId != "" && ptid != "" then
        { st with agentLinks := recordSet st.agentLinks agentId ptid }
      else st
    | none => st
  | .entry (.user m) => processUA st m true
  | .entry (.assistant m) => processUA st m false

/-- Models `parseSessionFileWithAgentLinks`: stream the file line by line, then
backfill tool results from the pending map; a file with zero retained
messages yields no session. -/
def parseSessionFileWithAgentLinks (env : FSEnv) (filePath : String) :
    Except Unit (Option SessionCore × List (String × String)) :=
  if env.existsSync filePath then
    match env.readLines filePath with
    | .error e => .error e
    | .ok ls =>
      let sessionId := pathBasename filePath ".jsonl"
      let pr := projectOfPath env.existsSync filePath
      let st := ls.foldl parseLine {}
      let msgs := st.messages.map (backfillMsg st.pending)
      if msgs.length = 0 then .ok (none, st.agentLinks)
      else
        .ok (some
          { id := sessionId
            project := pr.1
            projectEncoded := pr.2
            gitBranch := st.gitBranch
            cwd := st.cwd
            version := st.version
            startTime := st.startTime
            endTime := st.endTime
            messages := msgs
            filePath := filePath }, st.agentLinks)
  else .ok (none, [])

/-! Section: Summary traversal (`session-store.ts` 333–426) -/

/-- The mutable locals of `getSessionSummary`'s line loop. -/
structure SummaryState where
  firstMessage : String := ""
  messageCount : Nat := 0
  startTime : Option Int := none
  endTime : Option Int := none
  gitBranch : Option String := none
  model : Option String := none
  metadataExtracted : Bool := false
deriving DecidableEq, Repr

/-- Handling of one user/assistant entry in the summary loop
(`session-store.ts` 373–399). -/
def summaryUA (st : SummaryState) (m : RawMsg) (isUser : Bool) : SummaryState :=
  let st := { st with messageCount := st.messageCount + 1 }
  let st :=
    if st.metadataExtracted then st
    else { st with metadataExtracted := true, gitBranch := jsOrNull m.gitBranch }
  let st :=
    if st.firstMessage == "" && isUser then
      { st with firstMessage :=
          match m.message.content with
          | .str s => takeChars 200 s
          | .blocks bs => takeChars 200 (extractTextContent (.blocks bs)) }
    else st
  let st :=
    if !jsTruthy st.model && !isUser && jsTruthy m.message.model then
      { st with model := m.message.model }
    else st
  let t := m.timestampMs
  { st with
    startTime := some (match st.startTime with
      | none => t
      | some s0 => if t < s0 then t else s0)
    endTime := some (match st.endTime with
      | none => t
      | some e0 => if t > e0 then t else e0) }

/-- One iteration of the summary line loop: only user/assistant entries
have any effect (snapshots are skipped explicitly, everything else falls
through the guards). -/
def summaryLine (st : SummaryState) (l : Line) : SummaryState :=
  match l with
  | .entry (.user m) => summaryUA st m true
  | .entry (.assistant m) => summaryUA st m false
  | _ => st

/-- Models `getSessionSummary`: summary-only traversal; a file with zero
user/assistant entries yields no summary. -/
def getSessionSummaryE (env : FSEnv) (filePath : String) :
    Except Unit (Option SessionSummary) :=
  if env.existsSync filePath then
    match env.readLines filePath with
    | .error e => .error e
    | .ok ls =>
      let sessionId := pathBasename filePath ".jsonl"
      let pr := projectOfPath env.existsSync filePath
      let st := ls.foldl summaryLine {}
      if st.messageCount = 0 then .ok none
      else
        .ok (some
          { id := sessionId
            project := pr.1
            projectEncoded := pr.2
            firstMessage := st.firstMessage
            messageCount := st.messageCount
            startTime := st.startTime
            endTime := st.endTime
            gitBranch := st.gitBranch
            model := st.model
            filePath := filePath })
  else .ok none

/-! Section: Summary cache (`session-store.ts` 37–65) -/

/-- Result of one `getCachedSessionSummary` call. `parsed` and `errored`
are ghost instrumentation recording which branch ran: `parsed` is true
iff `getSessionSummary` was invoked, `errored` iff the `catch` branch
ran. Neither influences the modelled data. -/
structure CachedResult where
  summary : Option SessionSummary
  cache : List (String × CacheEntry)
  parsed : Bool
  errored : Bool
deriving Repr

/-- The recomputation path of `getCachedSessionSummary` (lines 54–60):
store the fresh summary, or evict on a null summary; a throwing
computation falls into the `catch` (evict and return null). -/
def cachedRecompute (env : FSEnv) (cache : List (String × CacheEntry))
    (filePath : String) (mtime : Int) : CachedResult :=
  match getSessionSummaryE env filePath with
  | .error _ =>
    { summary := none, cache := recordDelete cache filePath, parsed := true, errored := true }
  | .ok none =>
    { summary := none, cache := recordDelete cache filePath, parsed := true, errored := false }
  | .ok (some sum) =>
    { summary := some sum, cache := recordSet cache filePath ⟨sum, mtime⟩,
      parsed := true, errored := false }

/-- Models `getCachedSessionSummary`: stat; serve the cached entry when the
mtime matches; otherwise recompute; any thrown filesystem error lands in
the `catch` branch (evict and return null). -/
def getCachedSessionSummary (env : FSEnv) (cache : List (String × CacheEntry))
    (filePath : String) : CachedResult :=
  match env.statMtime filePath with
  | none =>
    { summary := none, cache := recordDelete cache filePath, parsed := false, errored := true }
  | some mtime =>
    match recordGet cache filePath with
    | some c =>
      if c.mtime = mtime then
        { summary := some c.summary, cache := cache, parsed := false, errored := false }
      else cachedRecompute env cache filePath mtime
    | none => cachedRecompute env cache filePath mtime

/-! Section: Subagent file discovery (`session-store.ts` 503–530) -/

/-- The `agent-<id>.jsonl` name filter. -/
def isAgentFileName (n : String) : Bool :=
  jsStartsWith n "agent-" && jsEndsWith n ".jsonl"

/-- Models `findSubagentFiles`: candidates from `<projectDir>/<sessionId>/subagents`
(guarded by `existsSync`, readdir errors swallowed) followed by candidates
directly in the project directory (readdir errors swallowed). -/
def findSubagentFiles (env : FSEnv) (projectDir sessionId : String) : List String :=
  let subagentsDir := pathJoin (pathJoin projectDir sessionId) "subagents"
  let fromSub :=
    if env.existsSync subagentsDir then
      match env.readdirSync subagentsDir with
      | some names => (names.filter isAgentFileName).map (fun n => pathJoin subagentsDir n)
      | none => []
    else []
  let fromProj :=
    match env.readdirSync projectDir with
    | some names => (names.filter isAgentFileName).map (fun n => pathJoin projectDir n)
    | none => []
  fromSub ++ fromProj

/-- Modelled from the claim's words (C4 as stated): candidates from a
`subagents/<sessionId>/` subdirectory of the project directory together
with those directly in the project directory. Used only to exhibit that
the code disagrees with this reading. -/
def findSubagentFilesAsClaimed (env : FSEnv) (projectDir sessionId : String) : List String :=
  let claimedDir := pathJoin (pathJoin projectDir "subagents") sessionId
  let fromSub :=
    match env.readdirSync claimedDir with
    | some names => (names.filter isAgentFileName).map (fun n => pathJoin claimedDir n)
    | none => []
  let fromProj :=
    match env.readdirSync projectDir with
    | some names => (names.filter isAgentFileName).map (fun n => pathJoin projectDir n)
    | none => []
  fromSub ++ fromProj

/-- Follows the amended claim's words: the `agent-<id>.jsonl` files found
in the `<sessionId>/subagents/` subdirectory of the project directory
together with those found directly in the project directory. -/
def subagentCandidatesSpec (env : FSEnv) (projectDir sessionId : String) : List String :=
  let nestedDir := pathJoin (pathJoin projectDir sessionId) "subagents"
  let fromSub :=
    match env.readdirSync nestedDir with
    | some names => (names.filter isAgentFileName).map (fun n => pathJoin nestedDir n)
    | none => []
  let fromProj :=
    match env.readdirSync projectDir with
    | some names => (names.filter isAgentFileName).map (fun n => pathJoin projectDir n)
    | none => []
  fromSub ++ fromProj

/-! Section: Bounded task runner (`session-store.ts` 16–35)

`pLimit` is cooperative-async code; it is modelled as a small-step
system. A task is identified with the value it produces. Each worker is
either at its loop head, suspended awaiting task `i` (having claimed
index `i`), or finished. A schedule is a sequence of worker choices: an
`atLoop` worker atomically claims the next index (`currentIndex++`) or
finishes when indices are exhausted; an `awaiting i` worker resumes,
stores task `i`'s value at slot `i`, and returns to the loop head. This
captures every completion order of the awaited tasks. -/

/-- Status of one `worker()` invocation. -/
inductive WorkerStatus where
  | atLoop
  | awaiting (i : Nat)
  | finished
deriving DecidableEq, Repr

/-- Shared state of a `pLimit` run. -/
structure RunnerState (α : Type) where
  currentIndex : Nat
  results : List (Option α)
  workers : List WorkerStatus
deriving Repr

/-- Initial state: `results = new Array(tasks.length)` and
`Math.min(concurrency, tasks.length)` workers at their loop heads. -/
def pLimitInit (tasks : List α) (concurrency : Nat) : RunnerState α :=
  { currentIndex := 0
    results := List.replicate tasks.length none
    workers := List.replicate (min concurrency tasks.length) .atLoop }

/-- One scheduler step: run worker `w` until its next suspension point. -/
def pLimitStep (tasks : List α) (s : RunnerState α) (w : Nat) : RunnerState α :=
  match s.workers[w]? with
  | none => s
  | some .finished => s
  | some .atLoop =>
    if s.currentIndex < tasks.length then
      { s with currentIndex := s.currentIndex + 1
               workers := s.workers.set w (.awaiting s.currentIndex) }
    else
      { s with workers := s.workers.set w .finished }
  | some (.awaiting i) =>
    { s with results := s.results.set i tasks[i]?
             workers := s.workers.set w .atLoop }

/-- Run a whole schedule. -/
def pLimitRun (tasks : List α) (concurrency : Nat) (sched : List Nat) : RunnerState α :=
  sched.foldl (pLimitStep tasks) (pLimitInit tasks concurrency)

/-- Models `await Promise.all(workers)` has resolved: every worker finished. -/
def allDone (s : RunnerState α) : Bool :=
  s.workers.all fun st =>
    match st with
    | .finished => true
    | _ => false

/-! Section: Lemmas about record operations -/

theorem recordGet_recordSet_self (m : List (String × β)) (k : String) (v : β) :
    recordGet (recordSet m k v) k = some v := by
  induction m with
  | nil => simp [recordSet, recordGet]
  | cons kv rest ih =>
    cases hb : kv.1 == k with
    | true => simp [recordSet, recordGet, hb]
    | false => simp [recordSet, recordGet, hb, ih]

theorem recordGet_recordSet_ne (m : List (String × β)) (h : k' ≠ k) (v : β) :
    recordGet (recordSet m k' v) k = recordGet m k := by
  have hkk : (k' == k) = false := beq_eq_false_iff_ne.mpr h
  induction m with
  | nil => simp [recordSet, recordGet, hkk]
  | cons kv rest ih =>
    cases hb : kv.1 == k'
    · cases hk : kv.1 == k
      · simp [recordSet, recordGet, hb, hk, ih]
      · simp [recordSet, recordGet, hb, hk]
    · have hkv : kv.1 = k' := eq_of_beq hb
      simp [recordSet, recordGet, hb, hkv, hkk]

theorem recordGet_recordDelete_self (m : List (String × β)) (k : String) :
    recordGet (recordDelete m k) k = none := by
  induction m with
  | nil => rfl
  | cons kv rest ih =>
    cases hb : kv.1 == k
    · have hne : (kv.1 != k) = true := by simp [bne, hb]
      simpa [recordDelete, List.filter_cons, hne, recordGet, hb] using ih
    · have hne : (kv.1 != k) = false := by simp [bne, hb]
      simpa [recordDelete, List.filter_cons, hne] using ih

theorem recordGet_eq_none_iff (m : List (String × β)) (k : String) :
    recordGet m k = none ↔ ∀ kv ∈ m, kv.1 ≠ k := by
  induction m with
  | nil => simp [recordGet]
  | cons kv rest ih =>
    cases hb : kv.1 == k
    · have hne : kv.1 ≠ k := by simpa using (bne_iff_ne (a := kv.1) (b := k)).mp (by simp [bne, hb])
      simp [recordGet, hb, hne, ih]
    · have heq : kv.1 = k := eq_of_beq hb
      simp [recordGet, hb, heq]

/-- Keys of a record. -/
def recordKeys (m : List (String × β)) : List String :=
  m.map Prod.fst

theorem mem_recordKeys_recordSet (m : List (String × β)) (k : String) (v : β)
    (h : a ∈ recordKeys (recordSet m k v)) : a = k ∨ a ∈ recordKeys m := by
  induction m with
  | nil => simpa [recordSet, recordKeys] using h
  | cons kv rest ih =>
    cases hb : kv.1 == k
    · simp only [recordSet, hb, Bool.false_eq_true, ite_false, recordKeys, List.map_cons,
        List.mem_cons] at h
      rcases h with h | h
      · exact Or.inr (by simp [recordKeys, h])
      · rcases ih (by simpa [recordKeys] using h) with h' | h'
        · exact Or.inl h'
        · exact Or.inr (List.mem_cons.mpr (Or.inr (by simpa [recordKeys] using h')))
    · simp only [recordSet, hb, ite_true, recordKeys, List.map_cons, List.mem_cons] at h
      rcases h with h | h
      · exact Or.inl h
      · exact Or.inr (List.mem_cons.mpr (Or.inr (by simpa [recordKeys] using h)))

theorem nodup_recordKeys_recordSet (m : List (String × β)) (k : String) (v : β)
    (h : (recordKeys m).Nodup) : (recordKeys (recordSet m k v)).Nodup := by
  induction m with
  | nil => simp [recordSet, recordKeys]
  | cons kv rest ih =>
    simp only [recordKeys, List.map_cons, List.nodup_cons] at h
    cases hb : kv.1 == k
    · have hne : kv.1 ≠ k := by
        intro he
        rw [he] at hb
        simp at hb
      simp only [recordSet, hb, Bool.false_eq_true, ite_false, recordKeys, List.map_cons,
        List.nodup_cons]
      refine ⟨fun hmem => ?_, ih h.2⟩
      rcases mem_recordKeys_recordSet rest k v hmem with h' | h'
      · exact hne h'
      · exact h.1 (by simpa [recordKeys] using h')
    · have hkk : kv.1 = k := eq_of_beq hb
      simp only [recordSet, hb, ite_true, recordKeys, List.map_cons, List.nodup_cons]
      exact ⟨by rw [← hkk]; exact h.1, h.2⟩

theorem not_mem_recordKeys_iff (m : List (String × β)) (k : String) :
    k ∉ recordKeys m ↔ ∀ kv ∈ m, kv.1 ≠ k := by
  constructor
  · intro h kv hkv heq
    exact h (List.mem_map.mpr ⟨kv, hkv, heq⟩)
  · intro h hmem
    obtain ⟨kv, hkv, heq⟩ := List.mem_map.mp hmem
    exact h kv hkv heq

theorem recordGet_mergeRecord_of_none (src : List (String × β))
    (h : recordGet src k = none) (dst : List (String × β)) :
    recordGet (mergeRecord dst src) k = recordGet dst k := by
  induction src generalizing dst with
  | nil => rfl
  | cons kv rest ih =>
    cases hb : kv.1 == k
    · have hne : kv.1 ≠ k := by
        intro he
        rw [he] at hb
        simp at hb
      simp only [recordGet, hb, Bool.false_eq_true, ite_false] at h
      show recordGet (mergeRecord (recordSet dst kv.1 kv.2) rest) k = recordGet dst k
      rw [ih h, recordGet_recordSet_ne _ hne]
    · simp [recordGet, hb] at h

theorem recordGet_mergeRecord_of_some (src : List (String × β))
    (hu : (recordKeys src).Nodup) (h : recordGet src k = some r)
    (dst : List (String × β)) :
    recordGet (mergeRecord dst src) k = some r := by
  induction src generalizing dst with
  | nil => simp [recordGet] at h
  | cons kv rest ih =>
    simp only [recordKeys, List.map_cons, List.nodup_cons] at hu
    cases hb : kv.1 == k
    · simp only [recordGet, hb, Bool.false_eq_true, ite_false] at h
      show recordGet (mergeRecord (recordSet dst kv.1 kv.2) rest) k = some r
      exact ih hu.2 h _
    · have hkk : kv.1 = k := eq_of_beq hb
      simp only [recordGet, hb, ite_true, Option.some.injEq] at h
      have hnone : recordGet rest k = none := by
        rw [recordGet_eq_none_iff]
        rw [hkk] at hu
        exact (not_mem_recordKeys_iff rest k).mp hu.1
      show recordGet (mergeRecord (recordSet dst kv.1 kv.2) rest) k = some r
      rw [recordGet_mergeRecord_of_none rest hnone, hkk, ← h, recordGet_recordSet_self]

theorem nodup_recordKeys_extractToolResults (c : MsgContent) :
    (recordKeys (extractToolResults c)).Nodup := by
  cases c with
  | str s => simp [extractToolResults, recordKeys]
  | blocks bs =>
    suffices h : ∀ acc : List (String × ToolResultBlock), (recordKeys acc).Nodup →
        (recordKeys (bs.foldl (fun acc b =>
          match b with
          | .tool_result rb => recordSet acc rb.tool_use_id rb
          | _ => acc) acc)).Nodup by
      exact h [] (by simp [recordKeys])
    induction bs with
    | nil => intro acc hacc; exact hacc
    | cons b bs ih =>
      intro acc hacc
      cases b with
      | tool_result rb => exact ih _ (nodup_recordKeys_recordSet _ _ _ hacc)
      | text t => exact ih _ hacc
      | thinking tb => exact ih _ hacc
      | tool_use tu => exact ih _ hacc

/-! Section: Lemmas about the backfill pass -/

theorem recordGet_backfillStep_preserve (pending acc : List (String × ToolResultBlock))
    (tu : ToolUseBlock) (h : recordGet acc k = some r)
    (hp : recordGet pending k = some r) :
    recordGet (backfillStep pending acc tu) k = some r := by
  unfold backfillStep
  cases hg : recordGet pending tu.id with
  | none => exact h
  | some r' =>
    by_cases hid : tu.id = k
    · subst hid
      rw [hg] at hp
      cases hp
      rw [recordGet_recordSet_self]
    · rw [recordGet_recordSet_ne _ hid]
      exact h

theorem recordGet_backfill_foldl_preserve (pending : List (String × ToolResultBlock))
    (tus : List ToolUseBlock) (acc : List (String × ToolResultBlock))
    (h : recordGet acc k = some r) (hp : recordGet pending k = some r) :
    recordGet (tus.foldl (backfillStep pending) acc) k = some r := by
  induction tus generalizing acc with
  | nil => exact h
  | cons tu tus ih =>
    exact ih _ (recordGet_backfillStep_preserve pending acc tu h hp)

theorem recordGet_backfill_of_mem (pending : List (String × ToolResultBlock))
    (tus : List ToolUseBlock) (acc : List (String × ToolResultBlock))
    (tu : ToolUseBlock) (htu : tu ∈ tus) (hid : tu.id = k)
    (hp : recordGet pending k = some r) :
    recordGet (tus.foldl (backfillStep pending) acc) k = some r := by
  induction tus generalizing acc with
  | nil => cases htu
  | cons t ts ih =>
    rcases List.mem_cons.mp htu with rfl | hmem
    · have : recordGet (backfillStep pending acc tu) k = some r := by
        unfold backfillStep
        rw [hid, hp, recordGet_recordSet_self]
      exact recordGet_backfill_foldl_preserve pending ts _ this hp
    · exact ih (backfillStep pending acc t) hmem

@[simp] theorem backfillMsg_uuid (pending : List (String × ToolResultBlock))
    (m : ProcessedMessage) : (backfillMsg pending m).uuid = m.uuid := rfl

@[simp] theorem backfillMsg_textContent (pending : List (String × ToolResultBlock))
    (m : ProcessedMessage) : (backfillMsg pending m).textContent = m.textContent := rfl

@[simp] theorem backfillMsg_thinkingBlocks (pending : List (String × ToolResultBlock))
    (m : ProcessedMessage) : (backfillMsg pending m).thinkingBlocks = m.thinkingBlocks := rfl

@[simp] theorem backfillMsg_toolUseBlocks (pending : List (String × ToolResultBlock))
    (m : ProcessedMessage) : (backfillMsg pending m).toolUseBlocks = m.toolUseBlocks := rfl

@[simp] theorem backfillMsg_role (pending : List (String × ToolResultBlock))
    (m : ProcessedMessage) : (backfillMsg pending m).role = m.role := rfl

@[simp] theorem keepMessage_backfillMsg (pending : List (String × ToolResultBlock))
    (m : ProcessedMessage) : keepMessage (backfillMsg pending m) = keepMessage m := rfl

/-! Section: Characterization of the parse loop -/

/-- What one line contributes to the retained message list. -/
def lineRetained : Line → Option ProcessedMessage
  | .entry (.user m) =>
    if keepMessage (processMessage m) then some (processMessage m) else none
  | .entry (.assistant m) =>
    if keepMessage (processMessage m) then some (processMessage m) else none
  | _ => none

/-- What one line contributes to the pending cross-message tool-result map. -/
def pendStep (acc : List (String × ToolResultBlock)) :
    Line → List (String × ToolResultBlock)
  | .entry (.user m) => mergeRecord acc (processMessage m).toolResults
  | _ => acc

/-- The pending map after a full pass over the file. -/
def pendingOf (ls : List Line) : List (String × ToolResultBlock) :=
  ls.foldl pendStep []

theorem processUA_messages (st : ParseState) (m : RawMsg) (u : Bool) :
    (processUA st m u).messages =
      st.messages ++
        (if keepMessage (processMessage m) then [processMessage m] else []) := by
  cases hmd : st.metadataExtracted <;> cases u <;>
    cases hk : keepMessage (processMessage m) <;>
      simp [processUA, hmd, hk]

theorem parseLine_messages (st : ParseState) (l : Line) :
    (parseLine st l).messages = st.messages ++ (lineRetained l).toList := by
  cases l with
  | blank => simp [parseLine, lineRetained]
  | malformed => simp [parseLine, lineRetained]
  | unknown => simp [parseLine, lineRetained]
  | entry e =>
    cases e with
    | fileHistorySnapshot => simp [parseLine, lineRetained]
    | progress a p =>
      cases p with
      | none => simp [parseLine, lineRetained]
      | some ptid =>
        simp only [parseLine, lineRetained, Option.toList_none, List.append_nil]
        split <;> rfl
    | user m =>
      rw [show parseLine st (.entry (.user m)) = processUA st m true from rfl,
        processUA_messages]
      cases hk : keepMessage (processMessage m) <;> simp [lineRetained, hk]
    | assistant m =>
      rw [show parseLine st (.entry (.assistant m)) = processUA st m false from rfl,
        processUA_messages]
      cases hk : keepMessage (processMessage m) <;> simp [lineRetained, hk]

theorem foldl_parseLine_messages (ls : List Line) (st : ParseState) :
    (ls.foldl parseLine st).messages = st.messages ++ ls.filterMap lineRetained := by
  induction ls generalizing st with
  | nil => simp
  | cons l ls ih =>
    rw [List.foldl_cons, ih, parseLine_messages]
    cases hlr : lineRetained l <;> simp [List.filterMap_cons, hlr]

theorem processUA_pending (st : ParseState) (m : RawMsg) (u : Bool) :
    (processUA st m u).pending =
      if u then mergeRecord st.pending (processMessage m).toolResults
      else st.pending := by
  cases hmd : st.metadataExtracted <;> cases u <;>
    cases hk : keepMessage (processMessage m) <;>
      simp [processUA, hmd, hk]

theorem parseLine_pending (st : ParseState) (l : Line) :
    (parseLine st l).pending = pendStep st.pending l := by
  cases l with
  | blank => rfl
  | malformed => rfl
  | unknown => rfl
  | entry e =>
    cases e with
    | fileHistorySnapshot => rfl
    | progress a p =>
      cases p with
      | none => rfl
      | some ptid =>
        simp only [parseLine, pendStep]
        split <;> rfl
    | user m =>
      rw [show parseLine st (.entry (.user m)) = processUA st m true from rfl,
        processUA_pending]
      rfl
    | assistant m =>
      rw [show parseLine st (.entry (.assistant m)) = processUA st m false from rfl,
        processUA_pending]
      rfl

theorem foldl_parseLine_pending (ls : List Line) (st : ParseState) :
    (ls.foldl parseLine st).pending = ls.foldl pendStep st.pending := by
  induction ls generalizing st with
  | nil => rfl
  | cons l ls ih =>
    rw [List.foldl_cons, ih, parseLine_pending, List.foldl_cons]

theorem foldl_pendStep_no_key (l2 : List Line) (k : String)
    (h : ∀ m : RawMsg, Line.entry (Entry.user m) ∈ l2 →
      recordGet (processMessage m).toolResults k = none)
    (acc : List (String × ToolResultBlock)) :
    recordGet (l2.foldl pendStep acc) k = recordGet acc k := by
  induction l2 generalizing acc with
  | nil => rfl
  | cons l ls ih =>
    have htail : ∀ m : RawMsg, Line.entry (Entry.user m) ∈ ls →
        recordGet (processMessage m).toolResults k = none :=
      fun m hm => h m (List.mem_cons.mpr (Or.inr hm))
    rw [List.foldl_cons]
    cases l with
    | blank => exact ih htail acc
    | malformed => exact ih htail acc
    | unknown => exact ih htail acc
    | entry e =>
      cases e with
      | fileHistorySnapshot => exact ih htail acc
      | progress a p => exact ih htail acc
      | user m =>
        have hm := h m (List.mem_cons.mpr (Or.inl rfl))
        show recordGet (ls.foldl pendStep (mergeRecord acc (processMessage m).toolResults)) k
            = recordGet acc k
        rw [ih htail _, recordGet_mergeRecord_of_none _ hm]
      | assistant m => exact ih htail acc

theorem trimNonempty_ne_empty (s : String) (h : trimNonempty s = true) : s ≠ "" := by
  intro he
  subst he
  simp [trimNonempty] at h

theorem keepMessage_spec (p : ProcessedMessage) (h : keepMessage p = true) :
    p.textContent ≠ "" ∨ p.thinkingBlocks ≠ [] ∨ p.toolUseBlocks ≠ [] := by
  unfold keepMessage at h
  rcases Bool.or_eq_true_iff.mp h with h' | h'
  · rcases Bool.or_eq_true_iff.mp h' with h'' | h''
    · exact Or.inl (trimNonempty_ne_empty _ h'')
    · refine Or.inr (Or.inr ?_)
      intro he
      rw [he] at h''
      simp at h''
  · refine Or.inr (Or.inl ?_)
    intro he
    rw [he] at h'
    simp at h'

theorem keepMessage_of_toolUse (p : ProcessedMessage) (tu : ToolUseBlock)
    (h : tu ∈ p.toolUseBlocks) : keepMessage p = true := by
  unfold keepMessage
  have : p.toolUseBlocks.length ≠ 0 :=
    Nat.pos_iff_ne_zero.mp (List.length_pos_of_mem h)
  simp [this]

theorem lineRetained_keep (l : Line) (p : ProcessedMessage)
    (h : lineRetained l = some p) : keepMessage p = true := by
  cases l with
  | blank => simp [lineRetained] at h
  | malformed => simp [lineRetained] at h
  | unknown => simp [lineRetained] at h
  | entry e =>
    cases e with
    | fileHistorySnapshot => simp [lineRetained] at h
    | progress a q => simp [lineRetained] at h
    | user m =>
      cases hk : keepMessage (processMessage m)
      · simp [lineRetained, hk] at h
      · simp only [lineRetained, hk, ite_true, Option.some.injEq] at h
        rw [← h]
        exact hk
    | assistant m =>
      cases hk : keepMessage (processMessage m)
      · simp [lineRetained, hk] at h
      · simp only [lineRetained, hk, ite_true, Option.some.injEq] at h
        rw [← h]
        exact hk

theorem parse_unfold (env : FSEnv) (fp : String) (ls : List Line)
    (hex : env.existsSync fp = true) (hread : env.readLines fp = .ok ls) :
    parseSessionFileWithAgentLinks env fp =
      (let st := ls.foldl parseLine {}
       let msgs := (ls.filterMap lineRetained).map (backfillMsg (pendingOf ls))
       if msgs.length = 0 then .ok (none, st.agentLinks)
       else
         .ok (some
           { id := pathBasename fp ".jsonl"
             project := (projectOfPath env.existsSync fp).1
             projectEncoded := (projectOfPath env.existsSync fp).2
             gitBranch := st.gitBranch
             cwd := st.cwd
             version := st.version
             startTime := st.startTime
             endTime := st.endTime
             messages := msgs
             filePath := fp }, st.agentLinks)) := by
  unfold parseSessionFileWithAgentLinks
  simp only [hex, hread, if_true]
  rw [foldl_parseLine_messages, foldl_parseLine_pending]
  rfl

/-- Inversion: a successful parse determines the retained messages as the
filter of the file's lines, backfilled from the final pending map. -/
theorem parse_ok_some_inv (env : FSEnv) (fp : String) (s : SessionCore)
    (links : List (String × String))
    (h : parseSessionFileWithAgentLinks env fp = .ok (some s, links)) :
    ∃ ls, env.existsSync fp = true ∧ env.readLines fp = .ok ls ∧
      s.messages = (ls.filterMap lineRetained).map (backfillMsg (pendingOf ls)) := by
  cases hex : env.existsSync fp with
  | false =>
    rw [parseSessionFileWithAgentLinks, hex] at h
    simp at h
  | true =>
    cases hread : env.readLines fp with
    | error e =>
      rw [parseSessionFileWithAgentLinks, hex] at h
      simp only [if_true] at h
      rw [hread] at h
      simp at h
    | ok ls =>
      refine ⟨ls, rfl, rfl, ?_⟩
      rw [parse_unfold env fp ls hex hread] at h
      simp only at h
      split at h
      · simp at h
      · simp only [Except.ok.injEq, Prod.mk.injEq, Option.some.injEq] at h
        rw [← h.1]

/-- Construction: a file with at least one retained line parses to a
session whose messages are the backfilled retained messages. -/
theorem parse_ok_construct (env : FSEnv) (fp : String) (ls : List Line)
    (hex : env.existsSync fp = true) (hread : env.readLines fp = .ok ls)
    (hne : ls.filterMap lineRetained ≠ []) :
    ∃ s links, parseSessionFileWithAgentLinks env fp = .ok (some s, links) ∧
      s.messages = (ls.filterMap lineRetained).map (backfillMsg (pendingOf ls)) := by
  rw [parse_unfold env fp ls hex hread]
  simp only
  have hlen : ((ls.filterMap lineRetained).map (backfillMsg (pendingOf ls))).length ≠ 0 := by
    rw [List.length_map]
    intro hzero
    exact hne (List.length_eq_zero.mp hzero)
  rw [if_neg hlen]
  exact ⟨_, _, rfl, rfl⟩

theorem keep_false_of_all_tool_result (m : RawMsg) (bs : List ContentBlock)
    (hc : m.message.content = .blocks bs)
    (hall : ∀ b ∈ bs, ∃ rb, b = ContentBlock.tool_result rb) :
    keepMessage (processMessage m) = false := by
  have htext : (bs.filterMap fun b =>
      match b with
      | .text t => some t
      | _ => none) = ([] : List String) := by
    rw [List.filterMap_eq_nil_iff]
    intro b hb
    obtain ⟨rb, rfl⟩ := hall b hb
    rfl
  have hthink : (bs.filterMap fun b =>
      match b with
      | .thinking tb => some tb
      | _ => none) = ([] : List ThinkingBlock) := by
    rw [List.filterMap_eq_nil_iff]
    intro b hb
    obtain ⟨rb, rfl⟩ := hall b hb
    rfl
  have htool : (bs.filterMap fun b =>
      match b with
      | .tool_use tu => some tu
      | _ => none) = ([] : List ToolUseBlock) := by
    rw [List.filterMap_eq_nil_iff]
    intro b hb
    obtain ⟨rb, rfl⟩ := hall b hb
    rfl
  simp [keepMessage, processMessage, hc, extractTextContent, extractThinkingBlocks,
    extractToolUseBlocks, htext, hthink, htool, trimNonempty, String.intercalate]

/-! Section: Claim C1 -/

/-- C1: if an assistant entry `A` carries a `tool_use` block with id `X`
and a later user entry `B` carries the (unique determining, i.e. last)
`tool_result` block for `X`, the parsed session contains A's processed
message with `toolResults[X]` equal to B's block, although the two
blocks come from separate JSONL lines. -/
theorem claim1_tool_result_backfill (env : FSEnv) (fp : String)
    (l1 l2 : List Line) (A B : RawMsg) (tu : ToolUseBlock) (r : ToolResultBlock)
    (hex : env.existsSync fp = true)
    (hread : env.readLines fp = .ok (l1 ++ Line.entry (Entry.user B) :: l2))
    (hA : Line.entry (Entry.assistant A) ∈ l1)
    (htu : tu ∈ (processMessage A).toolUseBlocks)
    (hBr : recordGet (processMessage B).toolResults tu.id = some r)
    (hlater : ∀ C : RawMsg, Line.entry (Entry.user C) ∈ l2 →
      recordGet (processMessage C).toolResults tu.id = none) :
    ∃ s links, parseSessionFileWithAgentLinks env fp = .ok (some s, links) ∧
      ∃ m ∈ s.messages,
        m.uuid = A.uuid ∧
        m.role = (processMessage A).role ∧
        m.textContent = (processMessage A).textContent ∧
        m.thinkingBlocks = (processMessage A).thinkingBlocks ∧
        m.toolUseBlocks = (processMessage A).toolUseBlocks ∧
        recordGet m.toolResults tu.id = some r := by
  have hkeep : keepMessage (processMessage A) = true := keepMessage_of_toolUse _ tu htu
  have hlineA : Line.entry (Entry.assistant A) ∈
      l1 ++ Line.entry (Entry.user B) :: l2 := List.mem_append_left _ hA
  have hret : processMessage A ∈
      (l1 ++ Line.entry (Entry.user B) :: l2).filterMap lineRetained :=
    List.mem_filterMap.mpr ⟨_, hlineA, by simp [lineRetained, hkeep]⟩
  obtain ⟨s, links, hps, hmsg⟩ :=
    parse_ok_construct env fp _ hex hread (List.ne_nil_of_mem hret)
  have hpend : recordGet (pendingOf (l1 ++ Line.entry (Entry.user B) :: l2)) tu.id
      = some r := by
    unfold pendingOf
    rw [List.foldl_append, List.foldl_cons, foldl_pendStep_no_key l2 tu.id hlater]
    exact recordGet_mergeRecord_of_some _
      (nodup_recordKeys_extractToolResults B.message.content) hBr _
  refine ⟨s, links, hps,
    backfillMsg (pendingOf (l1 ++ Line.entry (Entry.user B) :: l2)) (processMessage A),
    ?_, rfl, rfl, rfl, rfl, rfl, ?_⟩
  · rw [hmsg]
    exact List.mem_map_of_mem _ hret
  · unfold backfillMsg
    exact recordGet_backfill_of_mem _ _ _ tu htu rfl hpend

def c1A : RawMsg :=
  { uuid := "a1", parentUuid := some "u0", timestamp := "2024-01-01T00:00:01Z"
    timestampMs := 100, cwd := "/w", version := "1.0.0", gitBranch := some "main"
    message := { role := .assistant
                 content := .blocks [.tool_use ⟨"t1", "Bash", "ls", none⟩]
                 model := some "model-x" } }

def c1B : RawMsg :=
  { uuid := "u2", parentUuid := some "a1", timestamp := "2024-01-01T00:00:02Z"
    timestampMs := 200, cwd := "/w", version := "1.0.0", gitBranch := some "main"
    message := { role := .user
                 content := .blocks [.tool_result ⟨"t1", "ok", none⟩]
                 model := none } }

def c1fp : String := "/r/projects/-w/s1.jsonl"

def c1env : FSEnv :=
  { existsSync := fun _ => true
    readLines := fun p =>
      if p == c1fp then
        .ok [Line.entry (Entry.assistant c1A), Line.entry (Entry.user c1B)]
      else .ok []
    statMtime := fun _ => some 1
    readdirSync := fun _ => none }

/-- Witness for C1 at a concrete two-line transcript. -/
theorem claim1_witness :
    ∃ s links, parseSessionFileWithAgentLinks c1env c1fp = .ok (some s, links) ∧
      ∃ m ∈ s.messages,
        m.uuid = c1A.uuid ∧
        m.role = (processMessage c1A).role ∧
        m.textContent = (processMessage c1A).textContent ∧
        m.thinkingBlocks = (processMessage c1A).thinkingBlocks ∧
        m.toolUseBlocks = (processMessage c1A).toolUseBlocks ∧
        recordGet m.toolResults (ToolUseBlock.id ⟨"t1", "Bash", "ls", none⟩)
          = some ⟨"t1", "ok", none⟩ :=
  claim1_tool_result_backfill c1env c1fp
    [Line.entry (Entry.assistant c1A)] [] c1A c1B ⟨"t1", "Bash", "ls", none⟩
    ⟨"t1", "ok", none⟩ rfl rfl (by decide) (by decide) (by decide)
    (fun C hC => absurd hC (List.not_mem_nil _))

/-! Section: Claim C2 -/

/-- C2: every message retained in a parsed session has non-empty text, a
thinking block, or a tool-use block; in particular a user entry whose
content is the empty string (hence has no tool blocks) never appears in
`session.messages`. -/
theorem claim2_retention_invariant (env : FSEnv) (fp : String) (s : SessionCore)
    (links : List (String × String))
    (h : parseSessionFileWithAgentLinks env fp = .ok (some s, links)) :
    (∀ m ∈ s.messages,
      m.textContent ≠ "" ∨ m.thinkingBlocks ≠ [] ∨ m.toolUseBlocks ≠ []) ∧
    (∀ e : RawMsg, e.message.content = .str "" → processMessage e ∉ s.messages) := by
  obtain ⟨ls, hex, hread, hmsg⟩ := parse_ok_some_inv env fp s links h
  have main : ∀ m ∈ s.messages,
      m.textContent ≠ "" ∨ m.thinkingBlocks ≠ [] ∨ m.toolUseBlocks ≠ [] := by
    intro m hm
    rw [hmsg] at hm
    obtain ⟨p, hp, rfl⟩ := List.mem_map.mp hm
    obtain ⟨l, _, hlr⟩ := List.mem_filterMap.mp hp
    have hk := keepMessage_spec p (lineRetained_keep l p hlr)
    simpa using hk
  refine ⟨main, fun e he hmem => ?_⟩
  rcases main _ hmem with h1 | h1 | h1
  · exact h1 (by simp [processMessage, he, extractTextContent])
  · exact h1 (by simp [processMessage, he, extractThinkingBlocks])
  · exact h1 (by simp [processMessage, he, extractToolUseBlocks])

def c2raw : RawMsg :=
  { uuid := "u1", parentUuid := none, timestamp := "2024-01-01T00:00:00Z"
    timestampMs := 50, cwd := "/w", version := "1.0.0", gitBranch := some "main"
    message := { role := .user, content := .str "hello", model := none } }

def c2fp : String := "/r/projects/-w/s2.jsonl"

def c2env : FSEnv :=
  { existsSync := fun _ => true
    readLines := fun p =>
      if p == c2fp then .ok [Line.entry (Entry.user c2raw)] else .ok []
    statMtime := fun _ => some 1
    readdirSync := fun _ => none }

def c2session : SessionCore :=
  { id := "s2", project := "/w", projectEncoded := "-w", gitBranch := some "main"
    cwd := "/w", version := "1.0.0", startTime := some 50, endTime := some 50
    messages := [{ uuid := "u1", parentUuid := none
                   timestamp := "2024-01-01T00:00:00Z", role := .user
                   textContent := "hello", thinkingBlocks := []
                   toolUseBlocks := [], toolResults := [], model := none }]
    filePath := c2fp }

/-- Witness for C2 at a concrete one-line transcript. -/
theorem claim2_witness :
    parseSessionFileWithAgentLinks c2env c2fp = .ok (some c2session, []) ∧
    ((∀ m ∈ c2session.messages,
        m.textContent ≠ "" ∨ m.thinkingBlocks ≠ [] ∨ m.toolUseBlocks ≠ []) ∧
      (∀ e : RawMsg, e.message.content = .str "" →
        processMessage e ∉ c2session.messages)) :=
  ⟨by rfl, claim2_retention_invariant c2env c2fp c2session [] (by rfl)⟩

/-! Section: Claim C10 -/

/-- C10: a user entry `B` carrying only `tool_result` blocks is itself
dropped from the session's messages, yet the result it carries is still
backfilled into the retained assistant message whose `tool_use` id
matches: filtering the message out does not lose its tool results. -/
theorem claim10_dropped_message_results_survive (env : FSEnv) (fp : String)
    (l1 l2 : List Line) (A B : RawMsg) (bs : List ContentBlock)
    (tu : ToolUseBlock) (r : ToolResultBlock)
    (hex : env.existsSync fp = true)
    (hread : env.readLines fp = .ok (l1 ++ Line.entry (Entry.user B) :: l2))
    (hA : Line.entry (Entry.assistant A) ∈ l1)
    (htu : tu ∈ (processMessage A).toolUseBlocks)
    (hBc : B.message.content = .blocks bs)
    (hBall : ∀ b ∈ bs, ∃ rb, b = ContentBlock.tool_result rb)
    (hBr : recordGet (processMessage B).toolResults tu.id = some r)
    (hlater : ∀ C : RawMsg, Line.entry (Entry.user C) ∈ l2 →
      recordGet (processMessage C).toolResults tu.id = none) :
    ∃ s links, parseSessionFileWithAgentLinks env fp = .ok (some s, links) ∧
      processMessage B ∉ s.messages ∧
      ∃ m ∈ s.messages,
        m.uuid = A.uuid ∧
        m.toolUseBlocks = (processMessage A).toolUseBlocks ∧
        recordGet m.toolResults tu.id = some r := by
  have hkeep : keepMessage (processMessage A) = true := keepMessage_of_toolUse _ tu htu
  have hlineA : Line.entry (Entry.assistant A) ∈
      l1 ++ Line.entry (Entry.user B) :: l2 := List.mem_append_left _ hA
  have hret : processMessage A ∈
      (l1 ++ Line.entry (Entry.user B) :: l2).filterMap lineRetained :=
    List.mem_filterMap.mpr ⟨_, hlineA, by simp [lineRetained, hkeep]⟩
  obtain ⟨s, links, hps, hmsg⟩ :=
    parse_ok_construct env fp _ hex hread (List.ne_nil_of_mem hret)
  have hpend : recordGet (pendingOf (l1 ++ Line.entry (Entry.user B) :: l2)) tu.id
      = some r := by
    unfold pendingOf
    rw [List.foldl_append, List.foldl_cons, foldl_pendStep_no_key l2 tu.id hlater]
    exact recordGet_mergeRecord_of_some _
      (nodup_recordKeys_extractToolResults B.message.content) hBr _
  refine ⟨s, links, hps, ?_, ?_⟩
  · intro hmem
    rw [hmsg] at hmem
    obtain ⟨p, hp, heq⟩ := List.mem_map.mp hmem
    obtain ⟨l, _, hlr⟩ := List.mem_filterMap.mp hp
    have hkp : keepMessage p = true := lineRetained_keep l p hlr
    have : keepMessage (processMessage B) = true := by
      rw [← heq, keepMessage_backfillMsg]
      exact hkp
    rw [keep_false_of_all_tool_result B bs hBc hBall] at this
    cases this
  · refine ⟨backfillMsg
      (pendingOf (l1 ++ Line.entry (Entry.user B) :: l2)) (processMessage A),
      ?_, rfl, rfl, ?_⟩
    · rw [hmsg]
      exact List.mem_map_of_mem _ hret
    · unfold backfillMsg
      exact recordGet_backfill_of_mem _ _ _ tu htu rfl hpend

def c10A : RawMsg :=
  { uuid := "a9", parentUuid := some "u8", timestamp := "2024-02-01T00:00:01Z"
    timestampMs := 300, cwd := "/w", version := "1.0.0", gitBranch := none
    message := { role := .assistant
                 content := .blocks [.tool_use ⟨"t9", "Read", "f", none⟩]
                 model := some "model-x" } }

def c10B : RawMsg :=
  { uuid := "u9", parentUuid := some "a9", timestamp := "2024-02-01T00:00:02Z"
    timestampMs := 400, cwd := "/w", version := "1.0.0", gitBranch := none
    message := { role := .user
                 content := .blocks [.tool_result ⟨"t9", "data", some false⟩]
                 model := none } }

def c10fp : String := "/r/projects/-w/s10.jsonl"

def c10env : FSEnv :=
  { existsSync := fun _ => true
    readLines := fun p =>
      if p == c10fp then
        .ok [Line.entry (Entry.assistant c10A), Line.entry (Entry.user c10B)]
      else .ok []
    statMtime := fun _ => some 1
    readdirSync := fun _ => none }

/-- Witness for C10 at a concrete two-line transcript. -/
theorem claim10_witness :
    ∃ s links, parseSessionFileWithAgentLinks c10env c10fp = .ok (some s, links) ∧
      processMessage c10B ∉ s.messages ∧
      ∃ m ∈ s.messages,
        m.uuid = c10A.uuid ∧
        m.toolUseBlocks = (processMessage c10A).toolUseBlocks ∧
        recordGet m.toolResults (ToolUseBlock.id ⟨"t9", "Read", "f", none⟩)
          = some ⟨"t9", "data", some false⟩ :=
  claim10_dropped_message_results_survive c10env c10fp
    [Line.entry (Entry.assistant c10A)] [] c10A c10B
    [.tool_result ⟨"t9", "data", some false⟩] ⟨"t9", "Read", "f", none⟩
    ⟨"t9", "data", some false⟩ rfl rfl (by decide) (by decide) rfl
    (by intro b hb; simp at hb; exact ⟨_, hb⟩) (by decide)
    (fun C hC => absurd hC (List.not_mem_nil _))

/-! Section: Characterization of the summary loop -/

/-- Lines whose parsed entry has type `user` or `assistant`. -/
def isUALine : Line → Bool
  | .entry (.user _) => true
  | .entry (.assistant _) => true
  | _ => false

/-- Number of user/assistant lines in a file. -/
def countUA (ls : List Line) : Nat :=
  (ls.filter isUALine).length

theorem summaryUA_messageCount (st : SummaryState) (m : RawMsg) (u : Bool) :
    (summaryUA st m u).messageCount = st.messageCount + 1 := by
  cases h1 : st.metadataExtracted <;>
    cases h2 : (st.firstMessage == "" && u) <;>
      cases h3 : (!jsTruthy st.model && !u && jsTruthy m.message.model) <;>
        simp [summaryUA, h1, h2, h3]

theorem summaryLine_messageCount (st : SummaryState) (l : Line) :
    (summaryLine st l).messageCount =
      st.messageCount + (if isUALine l then 1 else 0) := by
  cases l with
  | blank => simp [summaryLine, isUALine]
  | malformed => simp [summaryLine, isUALine]
  | unknown => simp [summaryLine, isUALine]
  | entry e =>
    cases e with
    | fileHistorySnapshot => simp [summaryLine, isUALine]
    | progress a p => simp [summaryLine, isUALine]
    | user m => simp [summaryLine, isUALine, summaryUA_messageCount]
    | assistant m => simp [summaryLine, isUALine, summaryUA_messageCount]

theorem foldl_summaryLine_count (ls : List Line) (st : SummaryState) :
    (ls.foldl summaryLine st).messageCount = st.messageCount + countUA ls := by
  induction ls generalizing st with
  | nil => simp [countUA]
  | cons l ls ih =>
    rw [List.foldl_cons, ih, summaryLine_messageCount]
    cases hl : isUALine l
    · simp [countUA, List.filter_cons, hl]
    · simp only [countUA, List.filter_cons, hl, if_true, List.length_cons]
      omega

theorem summaryUA_firstMessage (st : SummaryState) (m : RawMsg) (u : Bool) :
    (summaryUA st m u).firstMessage =
      if st.firstMessage == "" && u then
        takeChars 200 (extractTextContent m.message.content)
      else st.firstMessage := by
  cases hc : m.message.content with
  | str s =>
    cases h1 : st.metadataExtracted <;>
      cases h2 : (st.firstMessage == "" && u) <;>
        cases h3 : (!jsTruthy st.model && !u && jsTruthy m.message.model) <;>
          simp [summaryUA, h1, h2, h3, hc, extractTextContent]
  | blocks bs =>
    cases h1 : st.metadataExtracted <;>
      cases h2 : (st.firstMessage == "" && u) <;>
        cases h3 : (!jsTruthy st.model && !u && jsTruthy m.message.model) <;>
          simp [summaryUA, h1, h2, h3, hc]

/-- Follows the amended claim's words: the first 200 characters of the
text content of the first user-type entry whose text content is
non-empty (the empty string when no user entry has non-empty text). -/
def firstNonEmptyUserText : List Line → String
  | [] => ""
  | .entry (.user m) :: rest =>
    if extractTextContent m.message.content == "" then firstNonEmptyUserText rest
    else takeChars 200 (extractTextContent m.message.content)
  | _ :: rest => firstNonEmptyUserText rest

/-- Modelled from the claim's words (C5 as stated): the first 200
characters of the text content of the first user-type entry. Used only
to exhibit that the code disagrees with this reading. -/
def firstUserTextAsClaimed : List Line → String
  | [] => ""
  | .entry (.user m) :: _ => takeChars 200 (extractTextContent m.message.content)
  | _ :: rest => firstUserTextAsClaimed rest

theorem takeChars_ne_empty (t : String) (h : t ≠ "") : takeChars 200 t ≠ "" := by
  intro he
  apply h
  have hd : t.data.take 200 = [] := congrArg String.data he
  cases t with
  | mk d =>
    cases hcase : d with
    | nil => rfl
    | cons c cs =>
      rw [show (String.mk d).data = d from rfl, hcase] at hd
      simp at hd

theorem foldl_summaryLine_firstMessage_ne (ls : List Line) (st : SummaryState)
    (h : st.firstMessage ≠ "") :
    (ls.foldl summaryLine st).firstMessage = st.firstMessage := by
  induction ls generalizing st with
  | nil => rfl
  | cons l ls ih =>
    have hb : (st.firstMessage == "") = false := beq_eq_false_iff_ne.mpr h
    rw [List.foldl_cons]
    cases l with
    | blank => exact ih st h
    | malformed => exact ih st h
    | unknown => exact ih st h
    | entry e =>
      cases e with
      | fileHistorySnapshot => exact ih st h
      | progress a p => exact ih st h
      | user m =>
        have hfm : (summaryUA st m true).firstMessage = st.firstMessage := by
          rw [summaryUA_firstMessage, hb]
          simp
        rw [show summaryLine st (.entry (.user m)) = summaryUA st m true from rfl]
        rw [ih _ (by rw [hfm]; exact h), hfm]
      | assistant m =>
        have hfm : (summaryUA st m false).firstMessage = st.firstMessage := by
          rw [summaryUA_firstMessage]
          simp
        rw [show summaryLine st (.entry (.assistant m)) = summaryUA st m false from rfl]
        rw [ih _ (by rw [hfm]; exact h), hfm]

theorem foldl_summaryLine_firstMessage (ls : List Line) (st : SummaryState)
    (h : st.firstMessage = "") :
    (ls.foldl summaryLine st).firstMessage = firstNonEmptyUserText ls := by
  induction ls generalizing st with
  | nil => simpa [firstNonEmptyUserText] using h
  | cons l ls ih =>
    have hb : (st.firstMessage == "") = true := by rw [h]; rfl
    rw [List.foldl_cons]
    cases l with
    | blank => exact ih st h
    | malformed => exact ih st h
    | unknown => exact ih st h
    | entry e =>
      cases e with
      | fileHistorySnapshot => exact ih st h
      | progress a p => exact ih st h
      | assistant m =>
        have hfm : (summaryUA st m false).firstMessage = st.firstMessage := by
          rw [summaryUA_firstMessage]
          simp
        rw [show summaryLine st (.entry (.assistant m)) = summaryUA st m false from rfl]
        rw [ih _ (by rw [hfm]; exact h)]
        rfl
      | user m =>
        rw [show summaryLine st (.entry (.user m)) = summaryUA st m true from rfl]
        cases ht : extractTextContent m.message.content == "" with
        | true =>
          have hte : extractTextContent m.message.content = "" := eq_of_beq ht
          have hfm : (summaryUA st m true).firstMessage = "" := by
            rw [summaryUA_firstMessage, hb, hte]
            simp [takeChars]
          rw [ih _ hfm]
          simp [firstNonEmptyUserText, ht]
        | false =>
          have htne : extractTextContent m.message.content ≠ "" := by
            intro he
            rw [he] at ht
            simp at ht
          have hfm : (summaryUA st m true).firstMessage =
              takeChars 200 (extractTextContent m.message.content) := by
            rw [summaryUA_firstMessage, hb]
            simp
          rw [foldl_summaryLine_firstMessage_ne ls _
            (by rw [hfm]; exact takeChars_ne_empty _ htne), hfm]
          simp [firstNonEmptyUserText, ht]

/-! Section: Claim C3 -/

/-- C3: for a readable transcript file, `getSessionSummary` counts
exactly the user/assistant lines, and yields no summary exactly when
that count is zero. -/
theorem claim3_summary_message_count (env : FSEnv) (fp : String) (ls : List Line)
    (hex : env.existsSync fp = true) (hread : env.readLines fp = .ok ls) :
    ∃ r, getSessionSummaryE env fp = .ok r ∧
      (∀ sum, r = some sum → sum.messageCount = countUA ls) ∧
      (r = none ↔ countUA ls = 0) := by
  unfold getSessionSummaryE
  simp only [hex, if_true, hread]
  have hc : (ls.foldl summaryLine {}).messageCount = countUA ls := by
    rw [foldl_summaryLine_count]
    simp
  by_cases h0 : (ls.foldl summaryLine {}).messageCount = 0
  · rw [if_pos h0]
    refine ⟨none, rfl, by simp, ?_⟩
    rw [← hc]
    simp [h0]
  · rw [if_neg h0]
    refine ⟨some _, rfl, ?_, ?_⟩
    · intro sum hsum
      obtain rfl := Option.some.inj hsum
      exact hc
    · exact ⟨fun hcon => Option.noConfusion hcon, fun hz => absurd (hc.trans hz) h0⟩

def c3u : RawMsg :=
  { uuid := "u1", parentUuid := none, timestamp := "2024-03-01T00:00:00Z"
    timestampMs := 10, cwd := "/w", version := "1.0.0", gitBranch := none
    message := { role := .user, content := .str "hi", model := none } }

def c3a : RawMsg :=
  { uuid := "a1", parentUuid := some "u1", timestamp := "2024-03-01T00:00:01Z"
    timestampMs := 20, cwd := "/w", version := "1.0.0", gitBranch := none
    message := { role := .assistant, content := .str "hey", model := some "m" } }

def c3lines : List Line :=
  [Line.blank, Line.entry (Entry.user c3u), Line.malformed,
   Line.entry (Entry.assistant c3a), Line.entry (Entry.progress "ag" (some "t1")),
   Line.unknown, Line.entry Entry.fileHistorySnapshot]

def c3fp : String := "/r/projects/-w/s3.jsonl"

def c3env : FSEnv :=
  { existsSync := fun _ => true
    readLines := fun p => if p == c3fp then .ok c3lines else .ok []
    statMtime := fun _ => some 1
    readdirSync := fun _ => none }

/-- Witness for C3 at a concrete seven-line transcript with two
user/assistant entries. -/
theorem claim3_witness :
    ∃ r, getSessionSummaryE c3env c3fp = .ok r ∧
      (∀ sum, r = some sum → sum.messageCount = countUA c3lines) ∧
      (r = none ↔ countUA c3lines = 0) :=
  claim3_summary_message_count c3env c3fp c3lines rfl rfl

/-! Section: Claim C5 -/

def c5u1 : RawMsg :=
  { uuid := "u1", parentUuid := none, timestamp := "2024-04-01T00:00:00Z"
    timestampMs := 10, cwd := "/w", version := "1.0.0", gitBranch := none
    message := { role := .user, content := .str "", model := none } }

def c5u2 : RawMsg :=
  { uuid := "u2", parentUuid := none, timestamp := "2024-04-01T00:00:01Z"
    timestampMs := 20, cwd := "/w", version := "1.0.0", gitBranch := none
    message := { role := .user, content := .str "hello", model := none } }

def c5lines : List Line :=
  [Line.entry (Entry.user c5u1), Line.entry (Entry.user c5u2)]

def c5fp : String := "/s5.jsonl"

def c5env : FSEnv :=
  { existsSync := fun _ => true
    readLines := fun p => if p == c5fp then .ok c5lines else .ok []
    statMtime := fun _ => some 1
    readdirSync := fun _ => none }

def c5sum : SessionSummary :=
  { id := "s5", project := "", projectEncoded := "", firstMessage := "hello"
    messageCount := 2, startTime := some 10, endTime := some 20
    gitBranch := none, model := none, filePath := c5fp }

/-- C5 counterexample: on a transcript whose first user entry has empty
text (`""`) followed by a user entry saying `"hello"`, the summary's
`firstMessage` is `"hello"`, not the first user entry's text. -/
theorem claim5_counterexample :
    getSessionSummaryE c5env c5fp = .ok (some c5sum) ∧
    c5sum.firstMessage ≠ firstUserTextAsClaimed c5lines := by
  constructor
  · rfl
  · decide

/-- C5 (amended): `firstMessage` equals the first 200 characters of the
text content of the first user-type entry whose text content is
non-empty, or the empty string when there is none. -/
theorem claim5_first_message (env : FSEnv) (fp : String) (ls : List Line)
    (sum : SessionSummary)
    (hex : env.existsSync fp = true) (hread : env.readLines fp = .ok ls)
    (h : getSessionSummaryE env fp = .ok (some sum)) :
    sum.firstMessage = firstNonEmptyUserText ls := by
  unfold getSessionSummaryE at h
  simp only [hex, if_true, hread] at h
  split at h
  · simp at h
  · simp only [Except.ok.injEq, Option.some.injEq] at h
    rw [← h]
    exact foldl_summaryLine_firstMessage ls {} rfl

/-- Witness for C5 (amended) at the counterexample transcript. -/
theorem claim5_witness :
    getSessionSummaryE c5env c5fp = .ok (some c5sum) ∧
    c5sum.firstMessage = firstNonEmptyUserText c5lines :=
  ⟨by rfl, claim5_first_message c5env c5fp c5lines c5sum rfl rfl (by rfl)⟩

/-! Section: Claim C4 -/

def c4env : FSEnv :=
  { existsSync := fun d => d == "/p" || d == "/p/subagents/s"
    readLines := fun _ => .ok []
    statMtime := fun _ => none
    readdirSync := fun d =>
      if d == "/p/subagents/s" then some ["agent-x.jsonl"]
      else if d == "/p" then some ["s", "subagents", "notes.txt"]
      else none }

/-- C4 counterexample: with a candidate file living in
`<projectDir>/subagents/<sessionId>/` (the directory the claim names) and
nothing in `<projectDir>/<sessionId>/subagents/`, the code returns no
candidates while the claim's reading returns one: the code's nested
location is `<sessionId>/subagents/`, not `subagents/<sessionId>/`. -/
theorem claim4_counterexample :
    findSubagentFiles c4env "/p" "s" ≠ findSubagentFilesAsClaimed c4env "/p" "s" := by
  decide

/-- C4 (amended): candidate discovery returns exactly the
`agent-<id>.jsonl` files found in the `<sessionId>/subagents/`
subdirectory of the project directory together with those found directly
in the project directory, and no others — on any filesystem whose
`readdirSync` only succeeds on existing directories. -/
theorem claim4_subagent_discovery (env : FSEnv) (projectDir sessionId : String)
    (hwf : ∀ d, env.readdirSync d ≠ none → env.existsSync d = true) :
    findSubagentFiles env projectDir sessionId =
      subagentCandidatesSpec env projectDir sessionId := by
  unfold findSubagentFiles subagentCandidatesSpec
  cases hrd : env.readdirSync (pathJoin (pathJoin projectDir sessionId) "subagents") with
  | none =>
    cases hex : env.existsSync (pathJoin (pathJoin projectDir sessionId) "subagents") <;>
      simp [hrd, hex]
  | some names =>
    have hex := hwf _ (by rw [hrd]; exact fun h => Option.noConfusion h)
    simp [hrd, hex]

def c4wenv : FSEnv :=
  { existsSync := fun _ => true
    readLines := fun _ => .ok []
    statMtime := fun _ => none
    readdirSync := fun d =>
      if d == "/q/t/subagents" then some ["agent-z.jsonl", "x.txt"]
      else if d == "/q" then some ["agent-y.jsonl", "t"]
      else none }

/-- Witness for C4 (amended) on a concrete two-location filesystem. -/
theorem claim4_witness :
    (∀ d, c4wenv.readdirSync d ≠ none → c4wenv.existsSync d = true) ∧
    findSubagentFiles c4wenv "/q" "t" = subagentCandidatesSpec c4wenv "/q" "t" ∧
    findSubagentFiles c4wenv "/q" "t"
      = ["/q/t/subagents/agent-z.jsonl", "/q/agent-y.jsonl"] :=
  ⟨fun _ _ => rfl,
    claim4_subagent_discovery c4wenv "/q" "t" (fun _ _ => rfl),
    by decide⟩

/-! Section: Claim C7 -/

/-- Modelled from the spec: the naive encoding of an absolute path — every
path separator replaced by the delimiter `-`. The repository contains no
encoder; `decodeProjectPath` reverses this external naming scheme. -/
def encodeProjectPath (p : String) : String :=
  mapChars (fun c => if c = '/' then '-' else c) p

/-- C7: decoding the naive encoding of an existing absolute path none of
whose characters is the delimiter `-` returns exactly that path. -/
theorem claim7_decode_roundtrip (ex : String → Bool) (P : String)
    (habs : jsStartsWith P "/" = true) (hexists : ex P = true)
    (hnd : ∀ c ∈ P.data, c ≠ '-') :
    decodeProjectPath ex (encodeProjectPath P) = P := by
  obtain ⟨rest, hP⟩ : ∃ rest, P.data = '/' :: rest := by
    unfold jsStartsWith at habs
    cases hd : P.data with
    | nil =>
      rw [hd] at habs
      simp [List.isPrefixOf] at habs
    | cons c cs =>
      rw [hd] at habs
      simp [List.isPrefixOf] at habs
      exact ⟨cs, by rw [← habs]⟩
  have hstart : jsStartsWith (encodeProjectPath P) "-" = true := by
    unfold jsStartsWith encodeProjectPath mapChars
    show ("-".data).isPrefixOf ((P.data.map fun c => if c = '/' then '-' else c)) = true
    rw [hP]
    simp [List.isPrefixOf]
  have hmap : P.data.map ((fun c => if c = '-' then '/' else c) ∘
      (fun c => if c = '/' then '-' else c)) = P.data := by
    have hpt : ∀ c ∈ P.data, ((fun c => if c = '-' then '/' else c) ∘
        (fun c => if c = '/' then '-' else c)) c = id c := by
      intro c hc
      have hcd := hnd c hc
      by_cases hcs : c = '/'
      · simp [hcs]
      · simp [Function.comp, hcs, hcd]
    rw [List.map_congr_left hpt, List.map_id]
  have hsimple : mapChars (fun c => if c = '-' then '/' else c)
      (encodeProjectPath P) = P := by
    unfold encodeProjectPath mapChars
    show String.mk ((P.data.map fun c => if c = '/' then '-' else c).map
      fun c => if c = '-' then '/' else c) = P
    rw [List.map_map, hmap]
  unfold decodeProjectPath
  rw [hstart]
  simp only [Bool.true_eq_false, if_false, hsimple, hexists, if_true]

def c7ex : String → Bool := fun s => s == "/a/b"

/-- Witness for C7 at the concrete path `/a/b`. -/
theorem claim7_witness :
    (jsStartsWith "/a/b" "/" = true ∧ c7ex "/a/b" = true ∧
      ∀ c ∈ ("/a/b" : String).data, c ≠ '-') ∧
    decodeProjectPath c7ex (encodeProjectPath "/a/b") = "/a/b" :=
  ⟨⟨by decide, by decide, by decide⟩,
    claim7_decode_roundtrip c7ex "/a/b" (by decide) (by decide) (by decide)⟩

/-! Section: Claim C8 -/

def c8envNull : FSEnv :=
  { existsSync := fun _ => true
    readLines := fun _ => .ok []
    statMtime := fun _ => some 5
    readdirSync := fun _ => none }

/-- C8 counterexample: on a file whose parse yields no summary (so
nothing is ever stored), two calls with identical mtime both take the
recompute path — the second call re-parses (`parsed = true`), refuting
"does not re-parse the file: only the cached entry is consulted" for
every file path. -/
theorem claim8_counterexample :
    (getCachedSessionSummary c8envNull
      (getCachedSessionSummary c8envNull [] "/f").cache "/f").parsed = true := by
  rfl

theorem recompute_key (env : FSEnv) (cache : List (String × CacheEntry))
    (fp : String) (mt : Int) (sum : SessionSummary)
    (hs : (cachedRecompute env cache fp mt).summary = some sum) :
    recordGet (cachedRecompute env cache fp mt).cache fp = some ⟨sum, mt⟩ := by
  unfold cachedRecompute at hs ⊢
  cases hss : getSessionSummaryE env fp with
  | error e =>
    rw [hss] at hs
    simp at hs
  | ok o =>
    rw [hss] at hs
    cases o with
    | none => simp at hs
    | some su =>
      dsimp only at hs ⊢
      obtain rfl := Option.some.inj hs
      exact recordGet_recordSet_self _ _ _

theorem cache_after_some (env : FSEnv) (cache : List (String × CacheEntry))
    (fp : String) (mt : Int) (sum : SessionSummary)
    (h1 : env.statMtime fp = some mt)
    (hs : (getCachedSessionSummary env cache fp).summary = some sum) :
    recordGet (getCachedSessionSummary env cache fp).cache fp = some ⟨sum, mt⟩ := by
  cases hg : recordGet cache fp with
  | none =>
    have hcall : getCachedSessionSummary env cache fp =
        cachedRecompute env cache fp mt := by
      unfold getCachedSessionSummary
      rw [h1, hg]
    rw [hcall] at hs ⊢
    exact recompute_key env cache fp mt sum hs
  | some c =>
    by_cases hc : c.mtime = mt
    · have hcall : getCachedSessionSummary env cache fp =
          { summary := some c.summary, cache := cache, parsed := false,
            errored := false } := by
        unfold getCachedSessionSummary
        rw [h1, hg]
        dsimp only
        rw [if_pos hc]
      rw [hcall] at hs ⊢
      dsimp only at hs ⊢
      obtain rfl := Option.some.inj hs
      rw [hg]
      cases c with
      | mk csum cmt =>
        dsimp only at hc
        rw [hc]
    · have hcall : getCachedSessionSummary env cache fp =
          cachedRecompute env cache fp mt := by
        unfold getCachedSessionSummary
        rw [h1, hg]
        dsimp only
        rw [if_neg hc]
      rw [hcall] at hs ⊢
      exact recompute_key env cache fp mt sum hs

/-- C8 (amended): if the file's mtime is unchanged between two calls and
the first call produced a (non-null) summary, the second call returns
exactly that stored summary without re-parsing — only the cached entry
is consulted (the second environment's file content is irrelevant) — and
leaves the cache unchanged. -/
theorem claim8_cache_idempotent (env1 env2 : FSEnv)
    (cache : List (String × CacheEntry)) (fp : String) (mt : Int)
    (sum : SessionSummary)
    (h1 : env1.statMtime fp = some mt) (h2 : env2.statMtime fp = some mt)
    (hs : (getCachedSessionSummary env1 cache fp).summary = some sum) :
    getCachedSessionSummary env2 (getCachedSessionSummary env1 cache fp).cache fp =
      { summary := some sum
        cache := (getCachedSessionSummary env1 cache fp).cache
        parsed := false
        errored := false } := by
  have hkey := cache_after_some env1 cache fp mt sum h1 hs
  generalize (getCachedSessionSummary env1 cache fp).cache = c1 at hkey ⊢
  unfold getCachedSessionSummary
  rw [h2, hkey]
  simp

def c8u : RawMsg :=
  { uuid := "u8", parentUuid := none, timestamp := "2024-05-01T00:00:00Z"
    timestampMs := 77, cwd := "/w", version := "1.0.0", gitBranch := none
    message := { role := .user, content := .str "hi8", model := none } }

def c8fp : String := "/r/projects/-w/s8.jsonl"

def c8env : FSEnv :=
  { existsSync := fun _ => true
    readLines := fun p => if p == c8fp then .ok [Line.entry (Entry.user c8u)] else .ok []
    statMtime := fun _ => some 7
    readdirSync := fun _ => none }

def c8sum : SessionSummary :=
  { id := "s8", project := "/w", projectEncoded := "-w", firstMessage := "hi8"
    messageCount := 1, startTime := some 77, endTime := some 77
    gitBranch := none, model := none, filePath := c8fp }

/-- Witness for C8 (amended) on a concrete one-message transcript. -/
theorem claim8_witness :
    (c8env.statMtime c8fp = some 7 ∧
      (getCachedSessionSummary c8env [] c8fp).summary = some c8sum) ∧
    getCachedSessionSummary c8env (getCachedSessionSummary c8env [] c8fp).cache c8fp =
      { summary := some c8sum
        cache := (getCachedSessionSummary c8env [] c8fp).cache
        parsed := false
        errored := false } :=
  ⟨⟨rfl, by rfl⟩,
    claim8_cache_idempotent c8env c8env [] c8fp 7 c8sum rfl rfl (by rfl)⟩

/-! Section: Claim C9 -/

/-- C9: whenever a filesystem error occurs while computing the cached
summary (the instrumented `errored` flag records that the `catch` branch
ran — a thrown stat or a failing read/parse), the operation returns no
summary and the path's cache entry is gone; the operation is a total
function, so no exception reaches the caller. -/
theorem claim9_error_eviction (env : FSEnv) (cache : List (String × CacheEntry))
    (fp : String)
    (herr : (getCachedSessionSummary env cache fp).errored = true) :
    (getCachedSessionSummary env cache fp).summary = none ∧
    recordGet (getCachedSessionSummary env cache fp).cache fp = none := by
  have recompute_err : ∀ mt : Int,
      (cachedRecompute env cache fp mt).errored = true →
      (cachedRecompute env cache fp mt).summary = none ∧
      recordGet (cachedRecompute env cache fp mt).cache fp = none := by
    intro mt he
    unfold cachedRecompute at he ⊢
    cases hss : getSessionSummaryE env fp with
    | error e =>
      rw [hss] at he
      exact ⟨rfl, recordGet_recordDelete_self _ _⟩
    | ok o =>
      rw [hss] at he
      cases o <;> simp at he
  cases hst : env.statMtime fp with
  | none =>
    have hcall : getCachedSessionSummary env cache fp =
        { summary := none, cache := recordDelete cache fp, parsed := false,
          errored := true } := by
      unfold getCachedSessionSummary
      rw [hst]
    rw [hcall]
    exact ⟨rfl, recordGet_recordDelete_self _ _⟩
  | some mt =>
    cases hg : recordGet cache fp with
    | some c =>
      by_cases hc : c.mtime = mt
      · have hcall : getCachedSessionSummary env cache fp =
            { summary := some c.summary, cache := cache, parsed := false,
              errored := false } := by
          unfold getCachedSessionSummary
          rw [hst, hg]
          dsimp only
          rw [if_pos hc]
        rw [hcall] at herr
        simp at herr
      · have hcall : getCachedSessionSummary env cache fp =
            cachedRecompute env cache fp mt := by
          unfold getCachedSessionSummary
          rw [hst, hg]
          dsimp only
          rw [if_neg hc]
        rw [hcall] at herr ⊢
        exact recompute_err mt herr
    | none =>
      have hcall : getCachedSessionSummary env cache fp =
          cachedRecompute env cache fp mt := by
        unfold getCachedSessionSummary
        rw [hst, hg]
      rw [hcall] at herr ⊢
      exact recompute_err mt herr

def c9sum : SessionSummary :=
  { id := "g", project := "", projectEncoded := "", firstMessage := ""
    messageCount := 1, startTime := none, endTime := none
    gitBranch := none, model := none, filePath := "/g" }

def c9env : FSEnv :=
  { existsSync := fun _ => false
    readLines := fun _ => .ok []
    statMtime := fun _ => none
    readdirSync := fun _ => none }

def c9cache : List (String × CacheEntry) := [("/g", ⟨c9sum, 1⟩)]

/-- Witness for C9: a vanished file (stat throws) evicts the existing
cache entry and yields no summary. -/
theorem claim9_witness :
    (getCachedSessionSummary c9env c9cache "/g").errored = true ∧
    ((getCachedSessionSummary c9env c9cache "/g").summary = none ∧
      recordGet (getCachedSessionSummary c9env c9cache "/g").cache "/g" = none) :=
  ⟨rfl, claim9_error_eviction c9env c9cache "/g" rfl⟩

/-! Section: Claim C6 -/

/-- Invariant of the `pLimit` worker system: indices below the shared
cursor are either held by a suspended worker or already filled with the
claimed task's value; suspended workers hold only claimed indices; a
finished worker proves the cursor has exhausted the tasks. -/
structure PLimitInv (tasks : List α) (N : Nat) (s : RunnerState α) : Prop where
  hidx : s.currentIndex ≤ tasks.length
  hrlen : s.results.length = tasks.length
  hwlen : s.workers.length = min N tasks.length
  hfill : ∀ i : Nat, i < s.currentIndex →
    (∃ w : Nat, s.workers[w]? = some (WorkerStatus.awaiting i)) ∨
      s.results[i]? = some tasks[i]?
  hawait : ∀ w i : Nat, s.workers[w]? = some (WorkerStatus.awaiting i) →
    i < s.currentIndex
  hfin : ∀ w : Nat, s.workers[w]? = some WorkerStatus.finished →
    tasks.length ≤ s.currentIndex

theorem pLimitInv_init (tasks : List α) (N : Nat) :
    PLimitInv tasks N (pLimitInit tasks N) where
  hidx := Nat.zero_le _
  hrlen := by simp [pLimitInit]
  hwlen := by simp [pLimitInit]
  hfill := fun i hi => absurd hi (Nat.not_lt_zero i)
  hawait := by
    intro w i h
    simp only [pLimitInit, List.getElem?_replicate] at h
    split at h <;> simp at h
  hfin := by
    intro w h
    simp only [pLimitInit, List.getElem?_replicate] at h
    split at h <;> simp at h

theorem pLimitInv_step (tasks : List α) (N : Nat) (s : RunnerState α) (w : Nat)
    (h : PLimitInv tasks N s) : PLimitInv tasks N (pLimitStep tasks s w) := by
  unfold pLimitStep
  cases hw : s.workers[w]? with
  | none => exact h
  | some ws =>
    obtain ⟨hwlt, hweq⟩ := List.getElem?_eq_some.mp hw
    cases ws with
    | finished => exact h
    | atLoop =>
      dsimp only
      by_cases hlt : s.currentIndex < tasks.length
      · rw [if_pos hlt]
        refine ⟨Nat.succ_le_of_lt hlt, h.hrlen, ?_, ?_, ?_, ?_⟩
        · rw [List.length_set]
          exact h.hwlen
        · intro i hi
          rcases Nat.lt_succ_iff_lt_or_eq.mp hi with hi' | hi'
          · rcases h.hfill i hi' with ⟨w', hw'⟩ | hres
            · left
              refine ⟨w', ?_⟩
              rcases eq_or_ne w' w with rfl | hne
              · rw [hw] at hw'
                simp at hw'
              · rw [List.getElem?_set_ne (Ne.symm hne)]
                exact hw'
            · exact Or.inr hres
          · subst hi'
            exact Or.inl ⟨w, by rw [List.getElem?_set_eq_of_lt _ hwlt]⟩
        · intro w' i hw'
          rcases eq_or_ne w' w with rfl | hne
          · rw [List.getElem?_set_eq_of_lt _ hwlt] at hw'
            simp only [Option.some.injEq, WorkerStatus.awaiting.injEq] at hw'
            show i < s.currentIndex + 1
            omega
          · rw [List.getElem?_set_ne (Ne.symm hne)] at hw'
            exact Nat.lt_succ_of_lt (h.hawait w' i hw')
        · intro w' hw'
          rcases eq_or_ne w' w with rfl | hne
          · rw [List.getElem?_set_eq_of_lt _ hwlt] at hw'
            simp at hw'
          · rw [List.getElem?_set_ne (Ne.symm hne)] at hw'
            exact Nat.le_succ_of_le (h.hfin w' hw')
      · rw [if_neg hlt]
        refine ⟨h.hidx, h.hrlen, ?_, ?_, ?_, ?_⟩
        · rw [List.length_set]
          exact h.hwlen
        · intro i hi
          rcases h.hfill i hi with ⟨w', hw'⟩ | hres
          · left
            refine ⟨w', ?_⟩
            rcases eq_or_ne w' w with rfl | hne
            · rw [hw] at hw'
              simp at hw'
            · rw [List.getElem?_set_ne (Ne.symm hne)]
              exact hw'
          · exact Or.inr hres
        · intro w' i hw'
          rcases eq_or_ne w' w with rfl | hne
          · rw [List.getElem?_set_eq_of_lt _ hwlt] at hw'
            simp at hw'
          · rw [List.getElem?_set_ne (Ne.symm hne)] at hw'
            exact h.hawait w' i hw'
        · intro w' hw'
          exact Nat.le_of_not_lt hlt
    | awaiting i =>
      dsimp only
      have hilt : i < s.currentIndex := h.hawait w i hw
      have hiltn : i < tasks.length := Nat.lt_of_lt_of_le hilt h.hidx
      refine ⟨h.hidx, ?_, ?_, ?_, ?_, ?_⟩
      · rw [List.length_set]
        exact h.hrlen
      · rw [List.length_set]
        exact h.hwlen
      · intro j hj
        rcases eq_or_ne j i with rfl | hji
        · right
          rw [List.getElem?_set_eq_of_lt _ (by rw [h.hrlen]; exact hiltn)]
        · rcases h.hfill j hj with ⟨w', hw'⟩ | hres
          · rcases eq_or_ne w' w with rfl | hne
            · rw [hw] at hw'
              simp only [Option.some.injEq, WorkerStatus.awaiting.injEq] at hw'
              exact absurd hw'.symm hji
            · left
              exact ⟨w', by rw [List.getElem?_set_ne (Ne.symm hne)]; exact hw'⟩
          · right
            rw [List.getElem?_set_ne (Ne.symm hji)]
            exact hres
      · intro w' j hw'
        rcases eq_or_ne w' w with rfl | hne
        · rw [List.getElem?_set_eq_of_lt _ hwlt] at hw'
          simp at hw'
        · rw [List.getElem?_set_ne (Ne.symm hne)] at hw'
          exact h.hawait w' j hw'
      · intro w' hw'
        rcases eq_or_ne w' w with rfl | hne
        · rw [List.getElem?_set_eq_of_lt _ hwlt] at hw'
          simp at hw'
        · rw [List.getElem?_set_ne (Ne.symm hne)] at hw'
          exact h.hfin w' hw'

theorem pLimitInv_run (tasks : List α) (N : Nat) (sched : List Nat) :
    PLimitInv tasks N (pLimitRun tasks N sched) := by
  unfold pLimitRun
  suffices h : ∀ s, PLimitInv tasks N s →
      PLimitInv tasks N (sched.foldl (pLimitStep tasks) s) from
    h _ (pLimitInv_init tasks N)
  induction sched with
  | nil => exact fun s hs => hs
  | cons w ws ih => exact fun s hs => ih _ (pLimitInv_step tasks N s w hs)

/-- C6: the runner starts exactly `min N (number of tasks)` workers, and
for every schedule (i.e. regardless of the order in which workers claim
indices and their awaited tasks complete) in which all workers have
finished, the result list pairs each input position with its own task's
value, in input order. -/
theorem claim6_pLimit_order_preserving (tasks : List α) (N : Nat) (hN : 1 ≤ N) :
    (pLimitInit tasks N).workers.length = min N tasks.length ∧
    ∀ sched, allDone (pLimitRun tasks N sched) = true →
      (pLimitRun tasks N sched).results = tasks.map some := by
  refine ⟨by simp [pLimitInit], ?_⟩
  intro sched hdone
  have hinv := pLimitInv_run tasks N sched
  set s := pLimitRun tasks N sched with hs
  unfold allDone at hdone
  have hAll := List.all_eq_true.mp hdone
  have hnoawait : ∀ w i : Nat, s.workers[w]? ≠ some (WorkerStatus.awaiting i) := by
    intro w i hw
    obtain ⟨hlt, heq⟩ := List.getElem?_eq_some.mp hw
    have hmem : WorkerStatus.awaiting i ∈ s.workers := heq ▸ List.getElem_mem hlt
    have := hAll _ hmem
    simp at this
  by_cases h0 : tasks.length = 0
  · have hr0 : s.results.length = 0 := by rw [hinv.hrlen, h0]
    rw [List.length_eq_zero.mp hr0, List.length_eq_zero.mp h0]
    rfl
  · have hwpos : 0 < s.workers.length := by
      rw [hinv.hwlen]
      exact lt_min_iff.mpr ⟨hN, Nat.pos_of_ne_zero h0⟩
    have hfin0 : s.workers[0]? = some .finished := by
      cases hg : s.workers[0]? with
      | none =>
        rw [List.getElem?_eq_none_iff] at hg
        omega
      | some x =>
        obtain ⟨hlt, heq⟩ := List.getElem?_eq_some.mp hg
        have hmem : x ∈ s.workers := heq ▸ List.getElem_mem hlt
        have hx := hAll _ hmem
        cases x with
        | atLoop => simp at hx
        | awaiting i => simp at hx
        | finished => rfl
    have hci : s.currentIndex = tasks.length :=
      Nat.le_antisymm hinv.hidx (hinv.hfin 0 hfin0)
    apply List.ext_getElem?
    intro n
    by_cases hn : n < tasks.length
    · rcases hinv.hfill n (by rw [hci]; exact hn) with ⟨w, hw⟩ | hres
      · exact absurd hw (hnoawait w n)
      · rw [hres, List.getElem?_map, List.getElem?_eq_getElem hn]
        rfl
    · have h1 : s.results[n]? = none := by
        rw [List.getElem?_eq_none_iff, hinv.hrlen]
        omega
      have h2 : (tasks.map some)[n]? = none := by
        rw [List.getElem?_eq_none_iff, List.length_map]
        omega
      rw [h1, h2]

/-- Witness for C6: two tasks, concurrency 2, and one complete schedule. -/
theorem claim6_witness :
    (1 : Nat) ≤ 2 ∧
    ((pLimitInit [10, 20] 2).workers.length = min 2 ([10, 20] : List Nat).length ∧
      ∀ sched, allDone (pLimitRun [10, 20] 2 sched) = true →
        (pLimitRun [10, 20] 2 sched).results = ([10, 20] : List Nat).map some) ∧
    allDone (pLimitRun [10, 20] 2 [0, 1, 0, 1, 0, 1]) = true ∧
    (pLimitRun [10, 20] 2 [0, 1, 0, 1, 0, 1]).results = [some 10, some 20] :=
  ⟨by decide, claim6_pLimit_order_preserving [10, 20] 2 (by decide), by decide,
    by decide⟩

end SessionStore
